import Mathlib

/-!
Verification development for the vpn-indexer repository.

We give a shallow embedding of the database-backed WireGuard IP allocator
(`internal/database`), the client registry and reference-data store, the
chain-sync cursor store, the S3 peer-ledger read-modify-write operations
(`internal/client`), the peer-registration handler flow (`internal/api`) and
the CBOR datum decoders (`internal/indexer`), and prove the specification
claims about them.

Machine integers are modelled as `Int` (Go `int`); byte strings as `List Nat`;
SQL tables as Lean lists of row structures, with the operations translated
statement-by-statement from the Go source.
-/

namespace VpnIndexer

/-- A byte string (Go `[]byte`), e.g. an asset name or credential. -/
abbrev Bytes := List Nat

/-! ## Go string helpers

`goAtoi` models `strconv.Atoi`: an optional sign followed by at least one
decimal digit (integer overflow is not modelled; octet values in this code
are small). `finalOctet` models the repeated pattern
`parts := strings.Split(ip, "."); len(parts) == 4; strconv.Atoi(parts[3])`.
-/

/-- Model of Go `strings.Split(s, ".")` on the character list: split at every
dot, keeping empty parts (so the result always has one more part than there
are dots). -/
def splitDotChars : List Char → List (List Char)
  | [] => [[]]
  | c :: rest =>
    if c = '.' then [] :: splitDotChars rest
    else
      match splitDotChars rest with
      | [] => [[c]]
      | g :: gs => (c :: g) :: gs

/-- Model of Go `strings.Split(s, ".")`. -/
def splitDot (s : String) : List String :=
  (splitDotChars s.toList).map (fun cs => String.mk cs)

/-- Numeric value of a list of decimal digit characters. -/
def digitsVal (cs : List Char) : Int :=
  cs.foldl (fun acc c => acc * 10 + (Int.ofNat (c.toNat - 48))) 0

/-- Model of Go `strconv.Atoi` (sign handling and digit validation). -/
def goAtoi (s : String) : Option Int :=
  match s.toList with
  | [] => none
  | c :: rest =>
    let (sign, digits) :=
      if c = '-' then ((-1 : Int), rest)
      else if c = '+' then ((1 : Int), rest)
      else ((1 : Int), c :: rest)
    if digits = [] then none
    else if digits.all Char.isDigit then some (sign * digitsVal digits)
    else none

/-- The parsed final octet of an IP string: defined exactly when the string
splits on `"."` into four parts whose last parses with `strconv.Atoi`. -/
def finalOctet (ip : String) : Option Int :=
  let parts := splitDot ip
  if parts.length = 4 then goAtoi (parts.getD 3 "") else none

/-! ## Database state (tables `client`, `wg_peer`, `wg_ip_pool`) -/

/-- A row of the `client` table (`internal/database/client.go`). -/
structure ClientRow where
  assetName : Bytes
  expiration : Int
  credential : Bytes
  region : String
  txHash : Bytes
  txOutputIndex : Nat
  deriving Repr, DecidableEq

/-- A row of the `wg_peer` table (`internal/database/wireguard.go`). -/
structure WGPeerRow where
  assetName : Bytes
  pubkey : String
  assignedIP : String
  deriving Repr, DecidableEq

/-- The relational state seen by the IP allocator: the `client` and
`wg_peer` tables plus the per-region `wg_ip_pool` rows (region, nextIP),
and the configured subnet (`config.Vpn.WGSubnet`). -/
structure DBState where
  clients : List ClientRow
  peers : List WGPeerRow
  pools : List (String × Int)
  subnet : String
  deriving Repr, DecidableEq

instance {e a : Type} [DecidableEq e] [DecidableEq a] : DecidableEq (Except e a) :=
  fun x y =>
    match x, y with
    | .ok v, .ok w => if h : v = w then .isTrue (by rw [h]) else .isFalse (by simp [h])
    | .error v, .error w => if h : v = w then .isTrue (by rw [h]) else .isFalse (by simp [h])
    | .ok _, .error _ => .isFalse (by simp)
    | .error _, .ok _ => .isFalse (by simp)

/-- Look up the `wg_ip_pool` row for a region. -/
def lookupPool (pools : List (String × Int)) (region : String) : Option Int :=
  (pools.find? (fun p => p.1 = region)).map (fun p => p.2)

/-- Model of `tx.Save(&pool)`: update the region's pool row, inserting it if absent. -/
def savePool (pools : List (String × Int)) (region : String) (v : Int) :
    List (String × Int) :=
  if pools.any (fun p => p.1 = region) then
    pools.map (fun p => if p.1 = region then (p.1, v) else p)
  else pools ++ [(region, v)]

/-- The in-use test of `AllocateIP`: octet `k` is used iff some `wg_peer`
row joined to a `client` row with the given region has an assigned IP whose
parsed final octet is `k` (the `JOIN client ON wg_peer.asset_name =
client.asset_name WHERE client.region = ?` pluck, followed by the
split/Atoi parse into `usedOctets`). -/
def usedOctet (db : DBState) (region : String) (k : Int) : Bool :=
  db.peers.any (fun p =>
    db.clients.any (fun c => c.assetName = p.assetName && c.region = region)
      && finalOctet p.assignedIP = some k)

/-- One step of the allocation scan: `currentIP++; if currentIP > 254
{ currentIP = 2 }`. -/
def scanStep (c : Int) : Int := if c + 1 > 254 then 2 else c + 1

/-- The wraparound scan loop of `AllocateIP`, with explicit fuel standing in
for the Go `for` loop (fuel 253 is proved sufficient below for any starting
octet in `[2,254]`). `none` means the fuel ran out; `some none` means the
scan wrapped back to its start with every octet in use (pool exhausted);
`some (some k)` means octet `k` was found free. -/
def scanLoop (used : Int → Bool) (start : Int) : Int → Nat → Option (Option Int)
  | _, 0 => none
  | c, fuel + 1 =>
    if used c = false then some (some c)
    else
      if scanStep c = start then some none
      else scanLoop used start (scanStep c) fuel

/-- Errors surfaced by the allocator model. `nonTermination` marks the
fuel-exhaustion case of the scan, which stands for the Go loop failing to
terminate; it is proved unreachable for pool hints in `[2,254]`. -/
inductive AllocErr where
  | poolExhausted
  | nonTermination
  deriving Repr, DecidableEq

/-- Model of `Database.AllocateIP` (success path of the transaction): read or create
the region's pool row (a fresh pool starts at octet 2), compute the in-use
octet set from the live peer/client join, scan from the hint for a free
octet, persist the advanced hint, and return the formatted IP. A failed
transaction (pool exhausted) rolls back, leaving the state unchanged. -/
def allocateIP (db : DBState) (region : String) :
    Except AllocErr (Int × String × DBState) :=
  let subnet := if db.subnet = "" then "10.8.0" else db.subnet
  let startIP := (lookupPool db.pools region).getD 2
  match scanLoop (usedOctet db region) startIP startIP 253 with
  | none => .error .nonTermination
  | some none => .error .poolExhausted
  | some (some k) =>
    let nextIP := if k + 1 > 254 then 2 else k + 1
    .ok (k, s!"{subnet}.{k}", { db with pools := savePool db.pools region nextIP })

/-- Errors returned by `Database.DeallocateIP`. -/
inductive DeallocErr where
  | invalidIPFormat
  | invalidIPOctet
  | octetOutOfRange
  deriving Repr, DecidableEq

/-- Model of `Database.DeallocateIP`: parse the final octet, validate it is in
`[2,254]`, and set the region's pool hint to it (the GORM
`Update("next_ip", octet)` touches only an existing row: with no pool row
for the region it is a no-op that still returns success). -/
def deallocateIP (db : DBState) (region ip : String) : Except DeallocErr DBState :=
  let parts := splitDot ip
  if parts.length ≠ 4 then .error .invalidIPFormat
  else
    match goAtoi (parts.getD 3 "") with
    | none => .error .invalidIPOctet
    | some octet =>
      if octet < 2 ∨ octet > 254 then .error .octetOutOfRange
      else .ok { db with
        pools := db.pools.map (fun p => if p.1 = region then (p.1, octet) else p) }

/-- Model of `Database.RebuildIPPool`: recompute the hint as max observed octet + 1
(wrapping above 254 to 2, and 2 when no parsed octet is positive) over the
live peer/client join, and save the pool row. -/
def rebuildIPPool (db : DBState) (region : String) : DBState :=
  let assignedIPs := db.peers.filterMap (fun p =>
    if db.clients.any (fun c => c.assetName = p.assetName && c.region = region)
    then some p.assignedIP else none)
  let maxOctet : Int := assignedIPs.foldl
    (fun m ip => match finalOctet ip with
      | some octet => if octet > m then octet else m
      | none => m) 0
  let nextIP := if maxOctet > 0 then (if maxOctet + 1 > 254 then 2 else maxOctet + 1) else 2
  { db with pools := savePool db.pools region nextIP }

/-! ## Scan loop lemmas -/

/-- The octet found by the scan is not in the in-use set. -/
theorem scanLoop_found_not_used (used : Int → Bool) (start : Int) :
    ∀ fuel c k, scanLoop used start c fuel = some (some k) → used k = false := by
  intro fuel
  induction fuel with
  | zero => intro c k h; simp [scanLoop] at h
  | succ n ih =>
    intro c k h
    simp only [scanLoop] at h
    split at h
    next hu =>
      simp only [Option.some.injEq] at h
      subst h
      exact hu
    next =>
      split at h
      next => simp at h
      next => exact ih (scanStep c) k h

/-- The scan step keeps octets inside `[2,254]`. -/
theorem scanStep_mem (c : Int) (h1 : 2 ≤ c) (h2 : c ≤ 254) :
    2 ≤ scanStep c ∧ scanStep c ≤ 254 := by
  unfold scanStep; split <;> omega

/-- The octet found by a scan started inside `[2,254]` is inside `[2,254]`. -/
theorem scanLoop_found_range (used : Int → Bool) (start : Int) :
    ∀ fuel c k, 2 ≤ c → c ≤ 254 → scanLoop used start c fuel = some (some k) →
      2 ≤ k ∧ k ≤ 254 := by
  intro fuel
  induction fuel with
  | zero => intro c k _ _ h; simp [scanLoop] at h
  | succ n ih =>
    intro c k h1 h2 h
    simp only [scanLoop] at h
    split at h
    next =>
      simp only [Option.some.injEq] at h
      subst h
      exact ⟨h1, h2⟩
    next =>
      split at h
      next => simp at h
      next =>
        exact ih (scanStep c) k (scanStep_mem c h1 h2).1 (scanStep_mem c h1 h2).2 h

/-- Number of loop iterations left before the scan at `c` wraps back to
`start` (the full cycle `2..254` has 253 octets). -/
def callsRem (start c : Int) : Nat := ((start - c - 1) % 253).toNat + 1

/-- Stepping the scan decreases `callsRem` by one as long as the step does
not return to `start`. -/
theorem callsRem_step (start c : Int) (hs1 : 2 ≤ start) (hs2 : start ≤ 254)
    (h1 : 2 ≤ c) (h2 : c ≤ 254) (hne : scanStep c ≠ start) :
    callsRem start (scanStep c) + 1 = callsRem start c := by
  by_cases hc : c + 1 > 254
  · simp only [scanStep, if_pos hc] at hne ⊢
    unfold callsRem
    omega
  · simp only [scanStep, if_neg hc] at hne ⊢
    unfold callsRem
    omega

/-- Fuel `callsRem start c` suffices for the scan: the loop of `AllocateIP`
terminates whenever the pool hint lies in `[2,254]`. -/
theorem scanLoop_ne_none (used : Int → Bool) (start : Int)
    (hs1 : 2 ≤ start) (hs2 : start ≤ 254) :
    ∀ fuel c, 2 ≤ c → c ≤ 254 → callsRem start c ≤ fuel →
      scanLoop used start c fuel ≠ none := by
  intro fuel
  induction fuel with
  | zero => intro c _ _ hf; unfold callsRem at hf; omega
  | succ n ih =>
    intro c h1 h2 hf
    simp only [scanLoop]
    split
    next => simp
    next =>
      split
      next => simp
      next hne =>
        have hm := scanStep_mem c h1 h2
        have hd := callsRem_step start c hs1 hs2 h1 h2 hne
        exact ih (scanStep c) hm.1 hm.2 (by omega)

/-- When every octet of `[2,254]` is in use, the scan wraps all the way back
to its start and reports exhaustion. -/
theorem scanLoop_all_used (used : Int → Bool) (start : Int)
    (hall : ∀ k : Int, 2 ≤ k → k ≤ 254 → used k = true)
    (hs1 : 2 ≤ start) (hs2 : start ≤ 254) :
    ∀ fuel c, 2 ≤ c → c ≤ 254 → callsRem start c ≤ fuel →
      scanLoop used start c fuel = some none := by
  intro fuel
  induction fuel with
  | zero => intro c _ _ hf; unfold callsRem at hf; omega
  | succ n ih =>
    intro c h1 h2 hf
    simp only [scanLoop]
    rw [if_neg (by simp [hall c h1 h2])]
    split
    next => rfl
    next hne =>
      have hm := scanStep_mem c h1 h2
      have hd := callsRem_step start c hs1 hs2 h1 h2 hne
      exact ih (scanStep c) hm.1 hm.2 (by omega)

/-! ## Allocator claim theorems -/

/-- The empty database state. -/
def emptyDB : DBState := { clients := [], peers := [], pools := [], subnet := "" }

/-- Range condition on a successful allocation result: the returned octet
lies in `[2,254]`, so it is never the reserved 0, 1 or 255. -/
def okOctetRange : Except AllocErr (Int × String × DBState) → Prop
  | .ok (k, _, _) => 2 ≤ k ∧ k ≤ 254 ∧ k ≠ 0 ∧ k ≠ 1 ∧ k ≠ 255
  | .error _ => True

/-- C1: whenever `AllocateIP(region)` succeeds, the returned octet is not in
the in-use set recomputed on this call from the live `wg_peer ⋈ client` join
for the region — with no assumption whatsoever on the pool's `nextIP` hint
(in particular for hints left pointing at an in-use octet by `DeallocateIP`
or `RebuildIPPool`). -/
theorem allocateIP_fresh (db : DBState) (region : String) (k : Int)
    (ip : String) (db2 : DBState)
    (h : allocateIP db region = .ok (k, ip, db2)) :
    usedOctet db region k = false := by
  simp only [allocateIP] at h
  rcases hscan : scanLoop (usedOctet db region)
      ((lookupPool db.pools region).getD 2)
      ((lookupPool db.pools region).getD 2) 253 with _ | _ | k0
  · rw [hscan] at h; exact absurd h (by simp)
  · rw [hscan] at h; exact absurd h (by simp)
  · rw [hscan] at h
    simp only [Except.ok.injEq, Prod.mk.injEq] at h
    obtain ⟨hk, -, -⟩ := h
    exact hk ▸ scanLoop_found_not_used (usedOctet db region) _ 253 _ _ hscan

/-- Witness for C1: a region with octet 2 in use and the hint still pointing
at the in-use octet 2; allocation succeeds with the fresh octet 3. -/
def driftDB : DBState :=
  { clients := [{ assetName := [1], expiration := 0, credential := [],
                  region := "r", txHash := [], txOutputIndex := 0 }],
    peers := [{ assetName := [1], pubkey := "p1", assignedIP := "10.8.0.2" }],
    pools := [("r", 2)], subnet := "" }

/-- Concrete instantiation of C1 on `driftDB`. -/
theorem allocateIP_fresh_witness : usedOctet driftDB "r" 3 = false :=
  allocateIP_fresh driftDB "r" 3 "10.8.0.3"
    { driftDB with pools := [("r", 4)] } (by decide)

/-- C2: with the pool hint in `[2,254]` (as every pool write keeps it, see
the invariant lemmas below): if every octet of `[2,254]` is in use by live
peers of the region then `AllocateIP` returns the pool-exhausted sentinel;
the wraparound scan never runs out of fuel (the Go loop terminates); and a
successful allocation returns an octet in `[2,254]`, never 0, 1 or 255. -/
theorem allocateIP_exhaustion (db : DBState) (region : String)
    (hh1 : 2 ≤ (lookupPool db.pools region).getD 2)
    (hh2 : (lookupPool db.pools region).getD 2 ≤ 254) :
    (((List.range' 2 253).all
        (fun n => usedOctet db region (Int.ofNat n))) = true →
      allocateIP db region = .error .poolExhausted)
    ∧ allocateIP db region ≠ .error .nonTermination
    ∧ okOctetRange (allocateIP db region) := by
  refine ⟨?_, ?_, ?_⟩
  · intro hall
    have hall2 : ∀ j : Int, 2 ≤ j → j ≤ 254 → usedOctet db region j = true := by
      intro j hj1 hj2
      rw [List.all_eq_true] at hall
      have hmem : j.toNat ∈ List.range' 2 253 := by
        rw [List.mem_range']
        refine ⟨j.toNat - 2, by omega, by omega⟩
      have := hall j.toNat hmem
      simpa [show ((j.toNat : Int)) = j by omega] using this
    simp only [allocateIP]
    rw [scanLoop_all_used (usedOctet db region) _ hall2 hh1 hh2 253 _ hh1 hh2
      (by unfold callsRem; omega)]
  · have hne := scanLoop_ne_none (usedOctet db region) _ hh1 hh2 253 _ hh1 hh2
      (by unfold callsRem; omega)
    simp only [allocateIP]
    rcases hscan : scanLoop (usedOctet db region)
        ((lookupPool db.pools region).getD 2)
        ((lookupPool db.pools region).getD 2) 253 with _ | _ | k0
    · exact absurd hscan hne
    · simp
    · simp
  · simp only [allocateIP]
    rcases hscan : scanLoop (usedOctet db region)
        ((lookupPool db.pools region).getD 2)
        ((lookupPool db.pools region).getD 2) 253 with _ | _ | k0
    · exact trivial
    · exact trivial
    · have hr := scanLoop_found_range (usedOctet db region) _ 253 _ _ hh1 hh2 hscan
      simp only [okOctetRange]
      omega

/-- Witness for C2 at the empty database (fresh pool hint 2). -/
theorem allocateIP_exhaustion_witness :
    (((List.range' 2 253).all
        (fun n => usedOctet emptyDB "r" (Int.ofNat n))) = true →
      allocateIP emptyDB "r" = .error .poolExhausted)
    ∧ allocateIP emptyDB "r" ≠ .error .nonTermination
    ∧ okOctetRange (allocateIP emptyDB "r") :=
  allocateIP_exhaustion emptyDB "r" (by decide) (by decide)

/-- Updating every pool row of a region to `octet` makes the subsequent
lookup return `octet`, provided some row for the region exists. -/
theorem lookupPool_after_update (pools : List (String × Int)) (region : String)
    (octet : Int) (hexists : pools.any (fun p => p.1 = region) = true) :
    lookupPool (pools.map (fun p => if p.1 = region then (p.1, octet) else p))
      region = some octet := by
  induction pools with
  | nil => simp at hexists
  | cons hd tl ih =>
    by_cases hhd : hd.1 = region
    · simp [lookupPool, List.find?, hhd]
    · simp only [List.any_cons, Bool.or_eq_true, decide_eq_true_eq] at hexists
      rcases hexists with h1 | h2
      · exact absurd h1 hhd
      · simpa [lookupPool, List.find?, hhd] using ih (by simpa using h2)

/-- A scan whose very first octet is free returns it at once. -/
theorem scanLoop_found_immediately (used : Int → Bool) (start c : Int)
    (fuel : Nat) (h : used c = false) :
    scanLoop used start c (fuel + 1) = some (some c) := by
  simp [scanLoop, h]

/-- Specialization of `scanLoop_found_immediately` to the fuel constant
used by `allocateIP`. -/
theorem scanLoop_253_found_first (used : Int → Bool) (start c : Int)
    (h : used c = false) : scanLoop used start c 253 = some (some c) :=
  scanLoop_found_immediately used start c 252 h

/-- C7 (amended): provided the region's pool row exists (as after any prior
`AllocateIP` or `RebuildIPPool` for the region), deallocating an IP whose
final octet `k ∈ [2,254]` is not in use by a live peer of the region makes
the next `AllocateIP` return octet `k`; and `DeallocateIP` rejects IPs
without four dot-separated parts, with a non-numeric final octet, or with an
octet outside `[2,254]`. -/
theorem deallocateIP_retry_first :
    (∀ db region ip k, db.pools.any (fun p => p.1 = region) = true →
      finalOctet ip = some k → 2 ≤ k → k ≤ 254 →
      usedOctet db region k = false →
      ((deallocateIP db region ip).toOption.bind (fun db1 =>
        (allocateIP db1 region).toOption.map (fun x => x.1))) = some k)
    ∧ (∀ db region ip, (splitDot ip).length ≠ 4 →
        deallocateIP db region ip = .error .invalidIPFormat)
    ∧ (∀ db region ip, goAtoi ((splitDot ip).getD 3 "") = none →
        (splitDot ip).length = 4 →
        deallocateIP db region ip = .error .invalidIPOctet)
    ∧ (∀ db region ip k, finalOctet ip = some k → (k < 2 ∨ k > 254) →
        deallocateIP db region ip = .error .octetOutOfRange) := by
  refine ⟨?_, ?_, ?_, ?_⟩
  · intro db region ip k hpool hoct hk2 hk4 hfree
    have hlen : (splitDot ip).length = 4 := by
      by_contra hlen
      simp [finalOctet, hlen] at hoct
    have hatoi : goAtoi ((splitDot ip).getD 3 "") = some k := by
      simpa [finalOctet, hlen] using hoct
    have hde : deallocateIP db region ip = .ok
        { db with
          pools := db.pools.map fun p => if p.1 = region then (p.1, k) else p } := by
      simp only [deallocateIP]
      rw [if_neg (fun hc => hc hlen)]
      simp only [hatoi]
      rw [if_neg (by omega : ¬(k < 2 ∨ k > 254))]
    have hfree1 : usedOctet
        { db with
          pools := db.pools.map fun p => if p.1 = region then (p.1, k) else p }
        region k = false := hfree
    have hlp : lookupPool
        (db.pools.map fun p => if p.1 = region then (p.1, k) else p) region
          = some k :=
      lookupPool_after_update db.pools region k hpool
    rw [hde]
    simp only [Except.toOption, Option.some_bind]
    simp only [allocateIP, hlp, Option.getD]
    rw [scanLoop_253_found_first _ _ _ hfree1]
    simp [Except.toOption]
  · intro db region ip hlen
    simp only [deallocateIP]
    rw [if_pos hlen]
  · intro db region ip hatoiN hlen
    simp only [deallocateIP]
    rw [if_neg (fun hc => hc hlen)]
    simp only [hatoiN]
  · intro db region ip k hoct hrange
    have hlen : (splitDot ip).length = 4 := by
      by_contra hlen
      simp [finalOctet, hlen] at hoct
    have hatoi : goAtoi ((splitDot ip).getD 3 "") = some k := by
      simpa [finalOctet, hlen] using hoct
    simp only [deallocateIP]
    rw [if_neg (fun hc => hc hlen)]
    simp only [hatoi]
    rw [if_pos hrange]

/-- A state whose pool row for region `"r"` exists with a drifted hint. -/
def poolDB : DBState := { clients := [], peers := [], pools := [("r", 9)], subnet := "" }

/-- Witness for C7 (amended) on `poolDB`: deallocating `10.8.0.5` makes the
next allocation return octet 5 even though the hint pointed at 9. -/
theorem deallocateIP_retry_first_witness :
    ((deallocateIP poolDB "r" "10.8.0.5").toOption.bind (fun db1 =>
      (allocateIP db1 "r").toOption.map (fun x => x.1))) = some 5 :=
  deallocateIP_retry_first.1 poolDB "r" "10.8.0.5" 5 (by decide) (by decide)
    (by decide) (by decide) (by decide)

/-- C7 counterexample to the unamended claim: with no pool row for the
region (fresh database), `DeallocateIP` succeeds as a silent no-op — the
GORM update matches zero rows — and the next `AllocateIP` returns octet 2,
not the deallocated octet 5. -/
theorem deallocateIP_no_pool_row :
    deallocateIP emptyDB "r" "10.8.0.5" = .ok emptyDB ∧
    ((deallocateIP emptyDB "r" "10.8.0.5").toOption.bind (fun db1 =>
      (allocateIP db1 "r").toOption.map (fun x => x.1))) = some 2 ∧
    (2 : Int) ≠ 5 :=
  ⟨by decide, by decide, by decide⟩

/-! ## Client registry (`Database.AddClient`, upsert by asset name) -/

/-- Model of `Database.AddClient` (`internal/database/client.go`): insert a row with
`clause.OnConflict` on `asset_name` and `UpdateAll` — if a row with the
asset name already exists all its fields are overwritten with the new
values, otherwise a new row is appended. -/
def addClient (clients : List ClientRow) (assetName : Bytes) (expiration : Int)
    (credential : Bytes) (region : String) (txHash : Bytes)
    (txOutputIndex : Nat) : List ClientRow :=
  let tmpItem : ClientRow :=
    { assetName := assetName, expiration := expiration, credential := credential,
      region := region, txHash := txHash, txOutputIndex := txOutputIndex }
  if clients.any (fun c => c.assetName = assetName) then
    clients.map (fun c => if c.assetName = assetName then tmpItem else c)
  else clients ++ [tmpItem]

/-- Replacing every row of asset name `a` by `tmp` (itself of asset name
`a`) turns the rows with asset name `a` into that many copies of `tmp`. -/
theorem filter_map_update (cls : List ClientRow) (a : Bytes) (tmp : ClientRow)
    (htmp : tmp.assetName = a) :
    (cls.map (fun c => if c.assetName = a then tmp else c)).filter
        (fun c => c.assetName = a)
      = List.replicate (cls.filter (fun c => c.assetName = a)).length tmp := by
  induction cls with
  | nil => rfl
  | cons hd tl ih =>
    by_cases hhd : hd.assetName = a
    · simp [List.filter_cons, hhd, htmp, List.replicate_succ, ih]
    · simp [List.filter_cons, hhd, ih]

/-- After `AddClient`, the rows with the given asset name are exactly the
one inserted record — provided the table held at most one row per asset
name before the call (the `uniqueIndex` invariant on `asset_name`). -/
theorem addClient_filter_eq (clients : List ClientRow) (a : Bytes) (e : Int)
    (cr : Bytes) (r : String) (th : Bytes) (i : Nat)
    (huniq : (clients.filter (fun c => c.assetName = a)).length ≤ 1) :
    (addClient clients a e cr r th i).filter (fun c => c.assetName = a)
      = [{ assetName := a, expiration := e, credential := cr, region := r,
           txHash := th, txOutputIndex := i }] := by
  by_cases hany : clients.any (fun c => c.assetName = a) = true
  · have hlen1 : (clients.filter (fun c => c.assetName = a)).length = 1 := by
      rcases List.any_eq_true.mp hany with ⟨c, hc, hca⟩
      have : c ∈ clients.filter (fun c => c.assetName = a) :=
        List.mem_filter.mpr ⟨hc, hca⟩
      have := List.length_pos.mpr (List.ne_nil_of_mem this)
      omega
    simp only [addClient, if_pos hany]
    rw [filter_map_update clients a _ rfl, hlen1, List.replicate_one]
  · have hnil : clients.filter (fun c => c.assetName = a) = [] := by
      rw [List.filter_eq_nil_iff]
      intro c hc
      intro hca
      exact hany (List.any_eq_true.mpr ⟨c, hc, hca⟩)
    simp only [addClient, if_neg hany]
    simp [List.filter_append, hnil]

/-- C5: two `AddClient` calls with the same asset name leave exactly one
row with that asset name, and its fields are those of the second call
(idempotent last-write-wins upsert), provided the table satisfied the
unique-index invariant (at most one row per asset name) beforehand. -/
theorem addClient_upsert_last_write_wins (clients : List ClientRow) (a : Bytes)
    (e1 e2 : Int) (c1 c2 : Bytes) (r1 r2 : String) (th1 th2 : Bytes)
    (i1 i2 : Nat)
    (huniq : (clients.filter (fun c => c.assetName = a)).length ≤ 1) :
    ((addClient (addClient clients a e1 c1 r1 th1 i1) a e2 c2 r2 th2 i2).filter
        (fun c => c.assetName = a))
      = [{ assetName := a, expiration := e2, credential := c2, region := r2,
           txHash := th2, txOutputIndex := i2 }] := by
  apply addClient_filter_eq
  rw [addClient_filter_eq clients a e1 c1 r1 th1 i1 huniq]
  simp

/-- Witness for C5: two calls on the empty table with different
expirations leave exactly the second record. -/
theorem addClient_upsert_witness :
    ((addClient (addClient [] [1] 10 [2] "us" [3] 0) [1] 20 [4] "eu" [5] 1).filter
        (fun c => c.assetName = [1]))
      = [{ assetName := [1], expiration := 20, credential := [4], region := "eu",
           txHash := [5], txOutputIndex := 1 }] :=
  addClient_upsert_last_write_wins [] [1] 10 20 [2] [4] "us" "eu" [3] [5] 0 1
    (by decide)

/-! ## Reference-data store (`Database.UpdateReferenceData`) -/

/-- A row of the `reference` table (`internal/database/reference.go`);
`referenceId = 1` is the fixed id of the single logical snapshot. -/
structure ReferenceRow where
  id : Nat
  txId : Bytes
  outputIdx : Int
  deriving Repr, DecidableEq

/-- A row of the `reference_price` table. -/
structure ReferencePriceRow where
  referenceID : Nat
  duration : Int
  price : Int
  deriving Repr, DecidableEq

/-- A row of the `reference_region` table. -/
structure ReferenceRegionRow where
  referenceID : Nat
  name : String
  deriving Repr, DecidableEq

/-- The three reference tables. -/
structure RefState where
  refs : List ReferenceRow
  prices : List ReferencePriceRow
  regions : List ReferenceRegionRow
  deriving Repr, DecidableEq

/-- The fixed snapshot id (`referenceId` constant). -/
def referenceId : Nat := 1

/-- Model of `Database.UpdateReferenceData`: inside one transaction, delete all
`reference_price` rows, delete all `reference_region` rows (both with
`AllowGlobalUpdate`, i.e. unconditionally), then create/update the single
`Reference` row with `OnConflict` on `id` and `FullSaveAssociations`, which
saves the passed price rows and the region names as associated rows keyed
to `referenceId`. -/
def updateReferenceData (st : RefState) (txId : Bytes) (outputIdx : Int)
    (prices : List ReferencePriceRow) (regions : List String) : RefState :=
  let tmpRef : ReferenceRow := { id := referenceId, txId := txId, outputIdx := outputIdx }
  { refs :=
      if st.refs.any (fun r => r.id = referenceId) then
        st.refs.map (fun r => if r.id = referenceId then tmpRef else r)
      else st.refs ++ [tmpRef],
    prices := prices.map (fun p => { p with referenceID := referenceId }),
    regions := regions.map (fun n => { referenceID := referenceId, name := n }) }

/-- One `UpdateReferenceData` call's arguments. -/
structure RefCall where
  txId : Bytes
  outputIdx : Int
  prices : List ReferencePriceRow
  regions : List String

/-- Apply a sequence of `UpdateReferenceData` calls. -/
def runRefCalls (st : RefState) (calls : List RefCall) : RefState :=
  calls.foldl
    (fun s c => updateReferenceData s c.txId c.outputIdx c.prices c.regions) st

/-- The empty (freshly migrated) reference state. -/
def emptyRefState : RefState := { refs := [], prices := [], regions := [] }

/-- The `reference` table holds either nothing or a single snapshot row. -/
def refsSingleton (st : RefState) : Prop :=
  st.refs = [] ∨ ∃ t o, st.refs = [{ id := referenceId, txId := t, outputIdx := o }]

/-- An update on a singleton-or-empty `reference` table leaves exactly the
new snapshot row. -/
theorem updateReferenceData_refs (st : RefState) (txId : Bytes)
    (outputIdx : Int) (prices : List ReferencePriceRow)
    (regions : List String) (h : refsSingleton st) :
    (updateReferenceData st txId outputIdx prices regions).refs
      = [{ id := referenceId, txId := txId, outputIdx := outputIdx }] := by
  rcases h with h | ⟨t, o, h⟩ <;>
    simp [updateReferenceData, h, referenceId]

/-- Any sequence of calls starting from the empty state keeps the
`reference` table singleton-or-empty. -/
theorem runRefCalls_refsSingleton (calls : List RefCall) :
    refsSingleton (runRefCalls emptyRefState calls) := by
  induction calls using List.reverseRecOn with
  | nil => exact Or.inl rfl
  | append_singleton cs c ih =>
    right
    refine ⟨c.txId, c.outputIdx, ?_⟩
    rw [runRefCalls, List.foldl_append]
    exact updateReferenceData_refs _ c.txId c.outputIdx c.prices c.regions ih

/-- C6: after any sequence of `UpdateReferenceData` calls ending with call
`c`, exactly one `Reference` row exists, and the `reference_price` /
`reference_region` tables hold exactly the prices and regions of `c` —
earlier calls' rows are all deleted, none accumulate. -/
theorem updateReferenceData_single_snapshot (calls : List RefCall) (c : RefCall) :
    (runRefCalls emptyRefState (calls ++ [c])).refs
        = [{ id := referenceId, txId := c.txId, outputIdx := c.outputIdx }]
    ∧ (runRefCalls emptyRefState (calls ++ [c])).prices
        = c.prices.map (fun p => { p with referenceID := referenceId })
    ∧ (runRefCalls emptyRefState (calls ++ [c])).regions
        = c.regions.map (fun n => { referenceID := referenceId, name := n }) := by
  have hrun : runRefCalls emptyRefState (calls ++ [c])
      = updateReferenceData (runRefCalls emptyRefState calls)
          c.txId c.outputIdx c.prices c.regions := by
    rw [runRefCalls, List.foldl_append]
    rfl
  refine ⟨?_, ?_, ?_⟩
  · rw [hrun]
    exact updateReferenceData_refs _ c.txId c.outputIdx c.prices c.regions
      (runRefCalls_refsSingleton calls)
  · rw [hrun]; rfl
  · rw [hrun]; rfl

/-! ## Cursor store (`internal/database/cursor.go`) -/

/-- A chain-sync point (`ocommon.Point`). -/
structure Point where
  hash : Bytes
  slot : Nat
  deriving Repr, DecidableEq

/-- A row of the `cursor` table. -/
structure CursorRow where
  id : Nat
  hash : Bytes
  slot : Nat
  deriving Repr, DecidableEq

/-- Retention bound (`maxCursorEntries = 50`). -/
def maxCursorEntries : Nat := 50

/-- The `cursor` table: rows in insertion order (ascending autoincrement
ids) together with the next autoincrement id. -/
structure CursorState where
  rows : List CursorRow
  nextId : Nat
  deriving Repr, DecidableEq

/-- The freshly migrated cursor table (SQL autoincrement starts at 1). -/
def emptyCursor : CursorState := { rows := [], nextId := 1 }

/-- Model of `Database.AddCursorPoint`: insert a row for the point; the `rand.Intn(100)
== 0` coin is modelled as the explicit `prune` argument — when it fires, the
rows with `id < max(id) - maxCursorEntries` are deleted. -/
def addCursorPoint (st : CursorState) (p : Point) (prune : Bool) : CursorState :=
  let rows1 := st.rows ++ [{ id := st.nextId, hash := p.hash, slot := p.slot }]
  let rows2 :=
    if prune then
      let maxId := (rows1.map (fun r => r.id)).foldl Nat.max 0
      rows1.filter (fun r => ¬ ((r.id : Int) < (maxId : Int) - (maxCursorEntries : Int)))
    else rows1
  { rows := rows2, nextId := st.nextId + 1 }

/-- Descending insertion by id, modelling the SQL `ORDER BY id DESC`. -/
def insertDescById (r : CursorRow) : List CursorRow → List CursorRow
  | [] => [r]
  | x :: xs => if x.id ≤ r.id then r :: x :: xs else x :: insertDescById r xs

/-- Sort rows by id, newest (largest id) first. -/
def sortDescById (l : List CursorRow) : List CursorRow :=
  l.foldr insertDescById []

/-- Model of `Database.GetCursorPoints`: all retained rows ordered by id descending,
projected to points. -/
def getCursorPoints (st : CursorState) : List Point :=
  (sortDescById st.rows).map (fun r => { hash := r.hash, slot := r.slot })

/-- Apply a sequence of `AddCursorPoint` calls (point plus prune coin). -/
def runCursorCalls (calls : List (Point × Bool)) : CursorState :=
  calls.foldl (fun st c => addCursorPoint st c.1 c.2) emptyCursor

/-- Number of trailing calls since the pruning coin last fired (all of the
sequence when it never fired): the "in-flight" entries of the claim. -/
def trailingUnpruned (calls : List (Point × Bool)) : Nat :=
  (calls.reverse.takeWhile (fun c => !c.2)).length

/-- Invariant of the cursor table: ids strictly increase in insertion order
and stay below the next autoincrement id. -/
def cursorInv (st : CursorState) : Prop :=
  (st.rows.map (fun r => r.id)).Pairwise (· < ·)
    ∧ ∀ r ∈ st.rows, r.id < st.nextId

/-- The operation `addCursorPoint` preserves the cursor-table invariant. -/
theorem addCursorPoint_inv (st : CursorState) (p : Point) (prune : Bool)
    (h : cursorInv st) : cursorInv (addCursorPoint st p prune) := by
  obtain ⟨hpw, hlt⟩ := h
  have hpw1 : ((st.rows
      ++ [({ id := st.nextId, hash := p.hash, slot := p.slot } : CursorRow)]).map
      (fun r => r.id)).Pairwise (· < ·) := by
    rw [List.map_append, List.pairwise_append]
    refine ⟨hpw, by simp, ?_⟩
    intro x hx y hy
    simp only [List.mem_map] at hx
    obtain ⟨r, hr, hrx⟩ := hx
    simp only [List.map_cons, List.map_nil, List.mem_singleton] at hy
    subst hy
    subst hrx
    exact hlt r hr
  have hlt1 : ∀ r ∈ st.rows
      ++ [({ id := st.nextId, hash := p.hash, slot := p.slot } : CursorRow)],
      r.id < st.nextId + 1 := by
    intro r hr
    rcases List.mem_append.mp hr with hr | hr
    · exact Nat.lt_succ_of_lt (hlt r hr)
    · simp only [List.mem_singleton] at hr
      subst hr
      exact Nat.lt_succ_self _
  cases prune with
  | false => exact ⟨hpw1, hlt1⟩
  | true =>
    refine ⟨?_, ?_⟩
    · exact List.Pairwise.sublist ((List.filter_sublist _).map _) hpw1
    · intro r hr
      exact hlt1 r ((List.filter_sublist _).subset hr)

/-- Sequence of calls with the last one split off. -/
theorem runCursorCalls_snoc (cs : List (Point × Bool)) (c : Point × Bool) :
    runCursorCalls (cs ++ [c]) = addCursorPoint (runCursorCalls cs) c.1 c.2 := by
  rw [runCursorCalls, List.foldl_append]
  rfl

/-- Every state reached from the fresh table satisfies the invariant. -/
theorem runCursorCalls_inv (calls : List (Point × Bool)) :
    cursorInv (runCursorCalls calls) := by
  induction calls using List.reverseRecOn with
  | nil => exact ⟨List.Pairwise.nil, by simp [runCursorCalls, emptyCursor]⟩
  | append_singleton cs c ih =>
    rw [runCursorCalls_snoc]
    exact addCursorPoint_inv _ _ _ ih

/-- The fold computing `max(id)` dominates its initial value. -/
theorem foldl_max_ge_init : ∀ (l : List Nat) (a : Nat), a ≤ l.foldl Nat.max a := by
  intro l
  induction l with
  | nil => intro a; exact Nat.le_refl a
  | cons hd tl ih =>
    intro a
    exact Nat.le_trans (Nat.le_max_left a hd) (ih (Nat.max a hd))

/-- The fold computing `max(id)` dominates every member. -/
theorem foldl_max_ge_mem : ∀ (l : List Nat) (a x : Nat), x ∈ l → x ≤ l.foldl Nat.max a := by
  intro l
  induction l with
  | nil => intro a x hx; cases hx
  | cons hd tl ih =>
    intro a x hx
    rcases List.mem_cons.mp hx with hx | hx
    · subst hx
      exact Nat.le_trans (Nat.le_max_right a x) (foldl_max_ge_init tl (Nat.max a x))
    · exact ih (Nat.max a hd) x hx

/-- A strictly increasing list of naturals inside `[lo, hi]` has at most
`hi + 1 - lo` entries. -/
theorem length_le_of_pairwise_bounded :
    ∀ (l : List Nat) (lo hi : Nat), l.Pairwise (· < ·) →
      (∀ x ∈ l, lo ≤ x ∧ x ≤ hi) → l.length ≤ hi + 1 - lo := by
  intro l
  induction l with
  | nil => intro lo hi _ _; simp
  | cons x xs ih =>
    intro lo hi hpw hb
    obtain ⟨hx, hxs⟩ := List.pairwise_cons.mp hpw
    have hxb := hb x (List.mem_cons_self x xs)
    have htail := ih (x + 1) hi hxs (fun y hy =>
      ⟨hx y hy, (hb y (List.mem_cons_of_mem x hy)).2⟩)
    simp only [List.length_cons]
    omega

/-- After a pruning `AddCursorPoint`, at most `maxCursorEntries + 1` rows
remain (ids in `[max(id) - 50, max(id)]`). -/
theorem addCursorPoint_prune_bound (st : CursorState) (p : Point)
    (h : cursorInv st) :
    (addCursorPoint st p true).rows.length ≤ maxCursorEntries + 1 := by
  obtain ⟨hpw1, -⟩ := addCursorPoint_inv st p false h
  set rows1 : List CursorRow :=
    st.rows ++ [({ id := st.nextId, hash := p.hash, slot := p.slot } : CursorRow)]
    with hrows1
  set maxId : Nat := (rows1.map (fun r => r.id)).foldl Nat.max 0 with hmax
  have hrows2 : (addCursorPoint st p true).rows
      = rows1.filter (fun r => ¬ ((r.id : Int) < (maxId : Int) - (maxCursorEntries : Int))) := rfl
  rw [hrows2]
  have hlen : (rows1.filter
      (fun r => ¬ ((r.id : Int) < (maxId : Int) - (maxCursorEntries : Int)))).length
      = ((rows1.filter
        (fun r => ¬ ((r.id : Int) < (maxId : Int) - (maxCursorEntries : Int)))).map
        (fun r => r.id)).length := (List.length_map _ _).symm
  rw [hlen]
  have hbound : maxId + 1 - (maxId - maxCursorEntries) ≤ maxCursorEntries + 1 := by
    omega
  refine Nat.le_trans (length_le_of_pairwise_bounded _ (maxId - maxCursorEntries) maxId
    ?_ ?_) hbound
  · exact List.Pairwise.sublist ((List.filter_sublist _).map _) hpw1
  · intro x hx
    simp only [List.mem_map] at hx
    obtain ⟨r, hr, hrx⟩ := hx
    obtain ⟨hmem, hkeep⟩ := List.mem_filter.mp hr
    subst hrx
    have hle : r.id ≤ maxId :=
      foldl_max_ge_mem _ 0 r.id (List.mem_map.mpr ⟨r, hmem, rfl⟩)
    have hge : ¬ ((r.id : Int) < (maxId : Int) - (maxCursorEntries : Int)) :=
      of_decide_eq_true hkeep
    constructor
    · omega
    · exact hle

/-- Inserting a row whose id is below everything in the list lands at the
end. -/
theorem insertDescById_append (r : CursorRow) :
    ∀ l : List CursorRow, (∀ y ∈ l, ¬ (y.id ≤ r.id)) →
      insertDescById r l = l ++ [r] := by
  intro l
  induction l with
  | nil => intro _; rfl
  | cons x xs ih =>
    intro hall
    have hx : ¬ (x.id ≤ r.id) := hall x (List.mem_cons_self x xs)
    simp only [insertDescById, if_neg hx]
    rw [ih (fun y hy => hall y (List.mem_cons_of_mem x hy))]
    rfl

/-- On rows whose ids strictly increase in insertion order, the
`ORDER BY id DESC` sort is exactly the reversed insertion order. -/
theorem sortDescById_eq_reverse :
    ∀ l : List CursorRow, ((l.map (fun r => r.id)).Pairwise (· < ·)) →
      sortDescById l = l.reverse := by
  intro l
  induction l with
  | nil => intro _; rfl
  | cons x xs ih =>
    intro hpw
    simp only [List.map_cons] at hpw
    obtain ⟨hx, hxs⟩ := List.pairwise_cons.mp hpw
    have : sortDescById (x :: xs) = insertDescById x (sortDescById xs) := rfl
    rw [this, ih hxs, insertDescById_append x xs.reverse ?_, List.reverse_cons]
    intro y hy
    have := hx y.id (List.mem_map.mpr ⟨y, List.mem_reverse.mp hy, rfl⟩)
    omega

/-- Appending a non-pruning call grows the in-flight count by one. -/
theorem trailingUnpruned_snoc_false (cs : List (Point × Bool)) (p : Point) :
    trailingUnpruned (cs ++ [(p, false)]) = trailingUnpruned cs + 1 := by
  simp [trailingUnpruned, List.reverse_append, List.takeWhile_cons]

/-- A pruning call resets the in-flight count. -/
theorem trailingUnpruned_snoc_true (cs : List (Point × Bool)) (p : Point) :
    trailingUnpruned (cs ++ [(p, true)]) = 0 := by
  simp [trailingUnpruned, List.reverse_append, List.takeWhile_cons]

/-- C8: after any sequence of `AddCursorPoint` calls (with the pruning coin
made explicit), `GetCursorPoints` returns the retained points newest first —
the reverse of insertion order — and the number of retained rows is at most
the retention bound 50, plus 1 (the bound's own off-by-one slack: pruning
keeps ids in `[max-50, max]`), plus the in-flight entries added since the
pruning branch last fired. -/
theorem cursor_newest_first_and_bounded (calls : List (Point × Bool)) :
    getCursorPoints (runCursorCalls calls)
        = ((runCursorCalls calls).rows.map
            (fun r => ({ hash := r.hash, slot := r.slot } : Point))).reverse
    ∧ (runCursorCalls calls).rows.length
        ≤ maxCursorEntries + 1 + trailingUnpruned calls := by
  constructor
  · rw [getCursorPoints,
      sortDescById_eq_reverse _ (runCursorCalls_inv calls).1, List.map_reverse]
  · induction calls using List.reverseRecOn with
    | nil => simp [runCursorCalls, emptyCursor]
    | append_singleton cs c ih =>
      obtain ⟨p, b⟩ := c
      rw [runCursorCalls_snoc]
      cases b with
      | true =>
        rw [trailingUnpruned_snoc_true]
        exact Nat.le_trans
          (addCursorPoint_prune_bound (runCursorCalls cs) p (runCursorCalls_inv cs))
          (by omega)
      | false =>
        rw [trailingUnpruned_snoc_false]
        have hlen : (addCursorPoint (runCursorCalls cs) (p, false).1
              (p, false).2).rows.length
            = (runCursorCalls cs).rows.length + 1 := by
          simp [addCursorPoint]
        omega

/-! ## Remote peer ledger (S3 peer files, `internal/client/s3peers.go`)

The S3 service itself is external; each retry attempt of the
read-modify-conditional-write loops is modelled by what the code observes
during it: the load outcome and the outcome of the conditional put. The
mutation the code issues is recorded as an `S3Action`.
-/

/-- One peer entry of a remote peer file (`PeerInfo`). -/
structure PeerInfo where
  pubkey : String
  assignedIP : String
  createdAt : Int
  deriving Repr, DecidableEq

/-- A remote peer file (`PeerFile`) together with the entity tag it was
loaded under. -/
structure PeerFile where
  assetName : String
  peers : List PeerInfo
  updatedAt : Int
  etag : String
  deriving Repr, DecidableEq

/-- A hex digit character (lower case, as `encoding/hex`). -/
def hexDigit (n : Nat) : Char :=
  if n < 10 then Char.ofNat (48 + n) else Char.ofNat (87 + n)

/-- Model of `hex.EncodeToString` on a byte string. -/
def hexEncode (bs : Bytes) : String :=
  String.mk ((bs.map (fun b => [hexDigit (b / 16), hexDigit (b % 16)])).flatten)

/-- Retry bound for conditional writes (`maxS3Retries = 3`). -/
def maxS3Retries : Nat := 3

/-- Outcome of one conditional `PutObject`. -/
inductive PutOutcome where
  | ok
  | conflict
  | otherError
  deriving Repr, DecidableEq

/-- What one retry attempt observes: whether the load failed, what it
returned (`none` = no such key), and how the conditional put ended. -/
structure S3AttemptEnv where
  loadErr : Bool
  loaded : Option PeerFile
  putOutcome : PutOutcome
  deriving Repr, DecidableEq

/-- The condition attached to a `PutObject` call. -/
inductive PutCond where
  | ifMatch (etag : String)
  | ifNoneMatch
  deriving Repr, DecidableEq

/-- An S3 mutation issued by the peer-ledger code; `deleteObject` is in the
vocabulary so that "the code never deletes" is expressible. -/
inductive S3Action where
  | put (assetName : String) (peers : List PeerInfo) (cond : PutCond)
  | deleteObject
  deriving Repr, DecidableEq

/-- Errors of the S3 peer-ledger operations. -/
inductive S3Err where
  | loadFailed
  | putFailed
  | retriesExhausted
  deriving Repr, DecidableEq

/-- The add-or-update step of `SavePeerToS3WithContext` (lines 106-123):
the first entry with the pubkey gets its assigned IP replaced in place,
all other fields kept; when no entry matches, a fresh entry carrying the
current time is appended. -/
def addOrUpdatePeer (peers : List PeerInfo) (pubkey ip : String) (now : Int) :
    List PeerInfo :=
  match peers with
  | [] => [{ pubkey := pubkey, assignedIP := ip, createdAt := now }]
  | p :: rest =>
    if p.pubkey = pubkey then { p with assignedIP := ip } :: rest
    else p :: addOrUpdatePeer rest pubkey ip now

/-- The retry loop of `SavePeerToS3WithContext`: load or create the file,
add or update the peer, write back conditionally (`If-None-Match: *` for a
new file, `If-Match` on the loaded etag otherwise); a conflict consumes a
retry, any other put error or a load error returns at once. Returns the
issued actions and the result. -/
def savePeerLoop (assetName : Bytes) (pubkey ip : String) (now : Int) :
    List S3AttemptEnv → List S3Action × Except S3Err Unit
  | [] => ([], .error .retriesExhausted)
  | env :: rest =>
    if env.loadErr then ([], .error .loadFailed)
    else
      let isNewFile := env.loaded.isNone
      let file := env.loaded.getD
        { assetName := hexEncode assetName, peers := [], updatedAt := 0, etag := "" }
      let newPeers := addOrUpdatePeer file.peers pubkey ip now
      let cond := if isNewFile then PutCond.ifNoneMatch else PutCond.ifMatch file.etag
      let w := S3Action.put file.assetName newPeers cond
      match env.putOutcome with
      | .ok => ([w], .ok ())
      | .conflict =>
        let res := savePeerLoop assetName pubkey ip now rest
        (w :: res.1, res.2)
      | .otherError => ([w], .error .putFailed)

/-- Model of `SavePeerToS3WithContext`: the loop runs at most `maxS3Retries`
attempts. -/
def savePeerToS3 (assetName : Bytes) (pubkey ip : String) (now : Int)
    (envs : List S3AttemptEnv) : List S3Action × Except S3Err Unit :=
  savePeerLoop assetName pubkey ip now (envs.take maxS3Retries)

/-- The retry loop of `RemovePeerFromS3WithContext`: a missing file means
nothing to remove; otherwise the peer's entries are filtered out and the
file — possibly with an empty peer list — is written back under `If-Match`
of the loaded etag (both the empty and the non-empty branch of the source
issue this same conditional put; there is no `DeleteObject` call). -/
def removePeerLoop (pubkey : String) (now : Int) :
    List S3AttemptEnv → List S3Action × Except S3Err Unit
  | [] => ([], .error .retriesExhausted)
  | env :: rest =>
    if env.loadErr then ([], .error .loadFailed)
    else
      match env.loaded with
      | none => ([], .ok ())
      | some file =>
        let newPeers := file.peers.filter (fun p => p.pubkey ≠ pubkey)
        let w := S3Action.put file.assetName newPeers (PutCond.ifMatch file.etag)
        match env.putOutcome with
        | .ok => ([w], .ok ())
        | .conflict =>
          let res := removePeerLoop pubkey now rest
          (w :: res.1, res.2)
        | .otherError => ([w], .error .putFailed)

/-- Model of `RemovePeerFromS3WithContext`: at most `maxS3Retries` attempts. -/
def removePeerFromS3 (pubkey : String) (now : Int)
    (envs : List S3AttemptEnv) : List S3Action × Except S3Err Unit :=
  removePeerLoop pubkey now (envs.take maxS3Retries)

/-- C10: the save step keeps at most one entry per pubkey. When the pubkey
already occurs, the first occurrence is updated in place — its assigned IP
replaced, its `createdAt` and position preserved — and nothing is appended;
a fresh entry is appended exactly when the pubkey is absent; and records
with pairwise-distinct pubkeys keep that property. -/
theorem addOrUpdatePeer_no_duplicates :
    (∀ (peers : List PeerInfo) (pubkey ip : String) (now : Int),
      (peers.map (fun p => p.pubkey)).Nodup →
      ((addOrUpdatePeer peers pubkey ip now).map (fun p => p.pubkey)).Nodup)
    ∧ (∀ (peers : List PeerInfo) (pubkey ip : String) (now : Int),
        pubkey ∈ peers.map (fun p => p.pubkey) →
        ∃ l1 p l2, peers = l1 ++ p :: l2 ∧ p.pubkey = pubkey ∧
          pubkey ∉ l1.map (fun q => q.pubkey) ∧
          addOrUpdatePeer peers pubkey ip now
            = l1 ++ { p with assignedIP := ip } :: l2)
    ∧ (∀ (peers : List PeerInfo) (pubkey ip : String) (now : Int),
        pubkey ∉ peers.map (fun p => p.pubkey) →
        addOrUpdatePeer peers pubkey ip now
          = peers ++ [{ pubkey := pubkey, assignedIP := ip, createdAt := now }]) := by
  have habsent : ∀ (peers : List PeerInfo) (pubkey ip : String) (now : Int),
      pubkey ∉ peers.map (fun p => p.pubkey) →
      addOrUpdatePeer peers pubkey ip now
        = peers ++ [{ pubkey := pubkey, assignedIP := ip, createdAt := now }] := by
    intro peers pubkey ip now hab
    induction peers with
    | nil => rfl
    | cons p rest ih =>
      simp only [List.map_cons, List.mem_cons, not_or] at hab
      rw [addOrUpdatePeer, if_neg (fun hc => hab.1 hc.symm), ih hab.2]
      rfl
  have hpresent : ∀ (peers : List PeerInfo) (pubkey ip : String) (now : Int),
      pubkey ∈ peers.map (fun p => p.pubkey) →
      ∃ l1 p l2, peers = l1 ++ p :: l2 ∧ p.pubkey = pubkey ∧
        pubkey ∉ l1.map (fun q => q.pubkey) ∧
        addOrUpdatePeer peers pubkey ip now
          = l1 ++ { p with assignedIP := ip } :: l2 := by
    intro peers pubkey ip now hmem
    induction peers with
    | nil => simp at hmem
    | cons p rest ih =>
      by_cases hp : p.pubkey = pubkey
      · exact ⟨[], p, rest, rfl, hp, by simp,
          by rw [addOrUpdatePeer, if_pos hp]; rfl⟩
      · have hmem2 : pubkey ∈ rest.map (fun q => q.pubkey) := by
          simp only [List.map_cons, List.mem_cons] at hmem
          rcases hmem with hmem | hmem
          · exact absurd hmem.symm hp
          · exact hmem
        obtain ⟨l1, q, l2, hsplit, hq, hnot1, heq⟩ := ih hmem2
        refine ⟨p :: l1, q, l2, by rw [hsplit]; rfl, hq, ?_, ?_⟩
        · simp only [List.map_cons, List.mem_cons, not_or]
          exact ⟨fun hc => hp hc.symm, hnot1⟩
        · rw [addOrUpdatePeer, if_neg hp, heq]
          rfl
  refine ⟨?_, hpresent, habsent⟩
  intro peers pubkey ip now hnd
  by_cases hmem : pubkey ∈ peers.map (fun p => p.pubkey)
  · obtain ⟨l1, p, l2, hsplit, hq, -, heq⟩ := hpresent peers pubkey ip now hmem
    rw [heq]
    have : (l1 ++ { p with assignedIP := ip } :: l2).map (fun q => q.pubkey)
        = (l1 ++ p :: l2).map (fun q => q.pubkey) := by
      simp
    rw [this, ← hsplit]
    exact hnd
  · rw [habsent peers pubkey ip now hmem]
    simp only [List.map_append, List.map_cons, List.map_nil]
    rw [List.nodup_append]
    refine ⟨hnd, by simp, ?_⟩
    intro a ha
    simp only [List.mem_singleton]
    intro hc
    subst hc
    exact absurd ha hmem

/-- A fresh and an updated record for the C10 witness. -/
def peerA : PeerInfo := { pubkey := "A", assignedIP := "10.8.0.2", createdAt := 7 }

/-- Witness for C10: on `[peerA]`, saving a new pubkey appends, and nodup
pubkeys are preserved. -/
theorem addOrUpdatePeer_no_duplicates_witness :
    addOrUpdatePeer [peerA] "B" "10.8.0.3" 9
        = [peerA, { pubkey := "B", assignedIP := "10.8.0.3", createdAt := 9 }]
    ∧ ((addOrUpdatePeer [peerA] "A" "10.8.0.4" 9).map (fun p => p.pubkey)).Nodup :=
  ⟨addOrUpdatePeer_no_duplicates.2.2 [peerA] "B" "10.8.0.3" 9 (by decide),
   addOrUpdatePeer_no_duplicates.1 [peerA] "A" "10.8.0.4" 9 (by decide)⟩

/-- Every action issued by the remove retry loop is the conditional
filtered write-back of a file loaded at some attempt. -/
theorem removePeerLoop_actions (pubkey : String) (now : Int) :
    ∀ (envs : List S3AttemptEnv), ∀ a ∈ (removePeerLoop pubkey now envs).1,
      ∃ env ∈ envs, ∃ file, env.loaded = some file ∧
        a = S3Action.put file.assetName
              (file.peers.filter (fun p => p.pubkey ≠ pubkey))
              (PutCond.ifMatch file.etag) := by
  intro envs
  induction envs with
  | nil => intro a ha; simp [removePeerLoop] at ha
  | cons env rest ih =>
    intro a ha
    rcases hle : env.loadErr with _ | _
    · rcases hld : env.loaded with _ | file
      · simp [removePeerLoop, hle, hld] at ha
      · rcases hout : env.putOutcome with _ | _ | _
        · simp only [removePeerLoop, hle, hld, hout, Bool.false_eq_true,
            if_false, List.mem_singleton] at ha
          exact ⟨env, List.mem_cons_self env rest, file, hld, ha⟩
        · simp only [removePeerLoop, hle, hld, hout, Bool.false_eq_true,
            if_false, List.mem_cons] at ha
          rcases ha with ha | ha
          · exact ⟨env, List.mem_cons_self env rest, file, hld, ha⟩
          · obtain ⟨env2, henv2, file2, hld2, ha2⟩ := ih a ha
            exact ⟨env2, List.mem_cons_of_mem env henv2, file2, hld2, ha2⟩
        · simp only [removePeerLoop, hle, hld, hout, Bool.false_eq_true,
            if_false, List.mem_singleton] at ha
          exact ⟨env, List.mem_cons_self env rest, file, hld, ha⟩
    · simp [removePeerLoop, hle] at ha

/-- C4: removing a peer never deletes the remote object: every S3 mutation
of `RemovePeerFromS3` is a conditional put (`If-Match` on the etag observed
at that attempt's load) whose payload keeps the loaded record's asset name
and holds exactly the loaded peers with the given pubkey's entries removed
— in particular an empty peer list, not a delete, when the last peer is
removed. -/
theorem removePeerFromS3_conditional_only (pubkey : String) (now : Int)
    (envs : List S3AttemptEnv) :
    ∀ a ∈ (removePeerFromS3 pubkey now envs).1,
      a ≠ S3Action.deleteObject ∧
      ∃ env ∈ envs, ∃ file, env.loaded = some file ∧
        a = S3Action.put file.assetName
              (file.peers.filter (fun p => p.pubkey ≠ pubkey))
              (PutCond.ifMatch file.etag) := by
  intro a ha
  obtain ⟨env, henv, file, hld, haeq⟩ :=
    removePeerLoop_actions pubkey now (envs.take maxS3Retries) a ha
  refine ⟨?_, env, List.take_subset _ _ henv, file, hld, haeq⟩
  rw [haeq]
  intro hc
  cases hc

/-- The remaining peer for the C4 witness. -/
def peerB : PeerInfo := { pubkey := "B", assignedIP := "10.8.0.3", createdAt := 8 }

/-- A single successful attempt environment holding peers A and B. -/
def envAB : S3AttemptEnv :=
  { loadErr := false,
    loaded := some { assetName := "aa", peers := [peerA, peerB],
                     updatedAt := 0, etag := "e1" },
    putOutcome := .ok }

/-- Witness for C4: removing pubkey `"A"` from the loaded record issues the
conditional write-back keeping only peer B. -/
theorem removePeerFromS3_conditional_only_witness :
    S3Action.put "aa" [peerB] (PutCond.ifMatch "e1") ≠ S3Action.deleteObject ∧
    ∃ env ∈ [envAB], ∃ file, env.loaded = some file ∧
      S3Action.put "aa" [peerB] (PutCond.ifMatch "e1")
        = S3Action.put file.assetName
            (file.peers.filter (fun p => p.pubkey ≠ "A"))
            (PutCond.ifMatch file.etag) :=
  removePeerFromS3_conditional_only "A" 0 [envAB]
    (S3Action.put "aa" [peerB] (PutCond.ifMatch "e1")) (by decide)

/-! ## Peer-registration write path (`Api.wgRegisterImpl`, lines 812-894) -/

/-- The observable steps of the post-validation part of `wgRegisterImpl`. -/
inductive RegAction where
  | allocIP (ip : String)
  | saveS3
  | deallocIP (ip : String)
  | addPeerDB
  | wgAddPeer
  | respondOk
  | respondError
  deriving Repr, DecidableEq

/-- The handler flow from the `AllocateIP` call on: on allocation failure
respond 500; otherwise, when an S3 client is configured, save the peer to
S3 and — on failure — deallocate the just-allocated IP and respond with an
error; only after a successful (or absent) remote save are the local cache
write, the best-effort container push and the success response reached. -/
def wgRegisterFlow (db : DBState) (region pubkey : String)
    (s3Configured : Bool) (s3Envs : List S3AttemptEnv) (assetName : Bytes)
    (now : Int) (wgConfigured : Bool) : List RegAction :=
  match allocateIP db region with
  | .error _ => [.respondError]
  | .ok (_, assignedIP, _) =>
    let tail := [RegAction.addPeerDB]
      ++ (if wgConfigured then [RegAction.wgAddPeer] else [])
      ++ [RegAction.respondOk]
    if s3Configured then
      match (savePeerToS3 assetName pubkey assignedIP now s3Envs).2 with
      | .ok _ => [RegAction.allocIP assignedIP, RegAction.saveS3] ++ tail
      | .error _ =>
        [RegAction.allocIP assignedIP, RegAction.saveS3,
         RegAction.deallocIP assignedIP, RegAction.respondError]
    else [RegAction.allocIP assignedIP] ++ tail

/-- C3: when allocation succeeds and the remote save fails (e.g. after
exhausting its bounded retries), the handler's trace is exactly: allocate,
attempt the save, deallocate the allocated IP, respond with the error — in
that order, with no cache write and no container push; conversely, the
cache write or the container push appear in the trace only when the remote
save succeeded. -/
theorem wgRegister_compensates_failed_save (db : DBState)
    (region pubkey : String) (s3Envs : List S3AttemptEnv) (assetName : Bytes)
    (now : Int) (wgConfigured : Bool) (k : Int) (ip : String) (db2 : DBState)
    (halloc : allocateIP db region = .ok (k, ip, db2)) :
    ((savePeerToS3 assetName pubkey ip now s3Envs).2.isOk = false →
      wgRegisterFlow db region pubkey true s3Envs assetName now wgConfigured
        = [.allocIP ip, .saveS3, .deallocIP ip, .respondError])
    ∧ (RegAction.addPeerDB
          ∈ wgRegisterFlow db region pubkey true s3Envs assetName now wgConfigured →
        (savePeerToS3 assetName pubkey ip now s3Envs).2.isOk = true)
    ∧ (RegAction.wgAddPeer
          ∈ wgRegisterFlow db region pubkey true s3Envs assetName now wgConfigured →
        (savePeerToS3 assetName pubkey ip now s3Envs).2.isOk = true) := by
  rcases hsave : (savePeerToS3 assetName pubkey ip now s3Envs).2 with e | u
  · have hflow : wgRegisterFlow db region pubkey true s3Envs assetName now wgConfigured
        = [.allocIP ip, .saveS3, .deallocIP ip, .respondError] := by
      simp only [wgRegisterFlow, halloc, if_pos, hsave]
    refine ⟨fun _ => hflow, ?_, ?_⟩
    · rw [hflow]
      intro hmem
      simp at hmem
    · rw [hflow]
      intro hmem
      simp at hmem
  · refine ⟨fun hcontra => ?_, fun _ => rfl, fun _ => rfl⟩
    simp [Except.isOk, Except.toBool] at hcontra

/-- An attempt whose conditional write hits a concurrent-modification
conflict. Three of these exhaust the save's bounded retries. -/
def conflictEnv : S3AttemptEnv :=
  { loadErr := false, loaded := none, putOutcome := .conflict }

/-- Witness for C3: on the empty database the allocation returns
`10.8.0.2`; with three conflicting attempts the remote save fails after its
bounded retries and the flow compensates by deallocating. -/
theorem wgRegister_compensates_failed_save_witness :
    ((savePeerToS3 [1] "P" "10.8.0.2" 0
        [conflictEnv, conflictEnv, conflictEnv]).2.isOk = false →
      wgRegisterFlow emptyDB "r" "P" true
          [conflictEnv, conflictEnv, conflictEnv] [1] 0 true
        = [.allocIP "10.8.0.2", .saveS3, .deallocIP "10.8.0.2", .respondError])
    ∧ (RegAction.addPeerDB ∈ wgRegisterFlow emptyDB "r" "P" true
          [conflictEnv, conflictEnv, conflictEnv] [1] 0 true →
        (savePeerToS3 [1] "P" "10.8.0.2" 0
          [conflictEnv, conflictEnv, conflictEnv]).2.isOk = true)
    ∧ (RegAction.wgAddPeer ∈ wgRegisterFlow emptyDB "r" "P" true
          [conflictEnv, conflictEnv, conflictEnv] [1] 0 true →
        (savePeerToS3 [1] "P" "10.8.0.2" 0
          [conflictEnv, conflictEnv, conflictEnv]).2.isOk = true) :=
  wgRegister_compensates_failed_save emptyDB "r" "P"
    [conflictEnv, conflictEnv, conflictEnv] [1] 0 true 2 "10.8.0.2"
    { emptyDB with pools := [("r", 3)] } (by decide)

/-! ## Datum codec (`internal/indexer/datum.go`)

The byte-level CBOR parse is done by the external gouroboros library;
the decoders of this repository receive its decoded shapes — a Plutus
tagged constructor (index plus field list) or primitive values — modelled
here as an explicit value inductive, per the tagged-union decode contract.
All decoders are total Lean functions, so they can only return a value or
an error, never panic.
-/

/-- A decoded CBOR value as the datum decoders see it. -/
inductive CborValue where
  | int (n : Int)
  | bytes (bs : Bytes)
  | text (s : String)
  | list (xs : List CborValue)
  | constr (tag : Nat) (fields : List CborValue)
  | other
  deriving Repr

/-- A decoded `(duration, price)` pair (`ReferenceDatumPricing`). -/
structure ReferenceDatumPricing where
  duration : Int
  price : Int
  deriving Repr, DecidableEq

/-- The decoded reference datum (`ReferenceDatum`): pricing pairs and
region byte strings. -/
structure ReferenceDatum where
  prices : List ReferenceDatumPricing
  regions : List Bytes
  deriving Repr, DecidableEq

/-- Model of `ReferenceDatumPricing.UnmarshalCBOR`: the value must be a constructor,
its tag must be 0, and its fields must be exactly an int duration and an
int price (struct-as-array). -/
def decodePricing (v : CborValue) : Except String ReferenceDatumPricing :=
  match v with
  | .constr tag fields =>
    if tag ≠ 0 then .error "invalid constructor"
    else
      match fields with
      | [.int d, .int p] => .ok { duration := d, price := p }
      | _ => .error "invalid pricing fields"
  | _ => .error "not a constructor"

/-- Decode every element of a CBOR list, failing on the first element that
fails. -/
def decodeEach {α : Type} (f : CborValue → Except String α) :
    List CborValue → Except String (List α)
  | [] => .ok []
  | v :: vs =>
    match f v with
    | .error e => .error e
    | .ok a =>
      match decodeEach f vs with
      | .error e => .error e
      | .ok rest => .ok (a :: rest)

/-- A region entry must be a byte string. -/
def decodeBytesVal (v : CborValue) : Except String Bytes :=
  match v with
  | .bytes bs => .ok bs
  | _ => .error "not a byte string"

/-- Model of `ReferenceDatum.UnmarshalCBOR`: the outer value must be a constructor,
its tag must be 0, and its fields must be exactly a list of pricing pairs
and a list of region byte strings (struct-as-array). -/
def decodeReferenceDatum (v : CborValue) : Except String ReferenceDatum :=
  match v with
  | .constr tag fields =>
    if tag ≠ 0 then .error "invalid constructor"
    else
      match fields with
      | [.list pvs, .list rvs] =>
        match decodeEach decodePricing pvs with
        | .error e => .error e
        | .ok prices =>
          match decodeEach decodeBytesVal rvs with
          | .error e => .error e
          | .ok regions => .ok { prices := prices, regions := regions }
      | _ => .error "invalid reference datum fields"
  | _ => .error "not a constructor"

/-- C9: a blob whose outer structure is a tagged constructor with tag ≠ 0
always fails to decode as a reference datum (with an error value, never a
panic — the decoder is a total function); and a decode succeeds only on a
tag-0 constructor whose two fields are a list of well-formed
(duration, price) pairs and a list of region byte strings. -/
theorem decodeReferenceDatum_tag_and_shape :
    (∀ (tag : Nat) (fields : List CborValue), tag ≠ 0 →
      decodeReferenceDatum (.constr tag fields) = .error "invalid constructor")
    ∧ (∀ (v : CborValue) (d : ReferenceDatum), decodeReferenceDatum v = .ok d →
        ∃ pvs rvs, v = .constr 0 [.list pvs, .list rvs] ∧
          decodeEach decodePricing pvs = .ok d.prices ∧
          decodeEach decodeBytesVal rvs = .ok d.regions) := by
  constructor
  · intro tag fields htag
    simp [decodeReferenceDatum, htag]
  · intro v d h
    rcases v with n | bs | str | xs | ⟨tag, fields⟩ | -
    case int => exact absurd h (by simp [decodeReferenceDatum])
    case bytes => exact absurd h (by simp [decodeReferenceDatum])
    case text => exact absurd h (by simp [decodeReferenceDatum])
    case list => exact absurd h (by simp [decodeReferenceDatum])
    case other => exact absurd h (by simp [decodeReferenceDatum])
    case constr =>
      by_cases htag : tag = 0
      case neg =>
        simp only [decodeReferenceDatum] at h
        rw [if_pos htag] at h
        cases h
      case pos =>
        subst htag
        simp only [decodeReferenceDatum] at h
        rw [if_neg (by simp)] at h
        split at h
        case h_1 pvs rvs =>
          split at h
          case h_1 => cases h
          case h_2 prices hp =>
            split at h
            case h_1 => cases h
            case h_2 regions hr =>
              cases h
              exact ⟨pvs, rvs, rfl, hp, hr⟩
        case h_2 => cases h

/-- Witness for C9: constructor tag 1 is rejected with the decoder's
"invalid constructor" error. -/
theorem decodeReferenceDatum_tag_witness :
    decodeReferenceDatum (.constr 1 []) = .error "invalid constructor" :=
  decodeReferenceDatum_tag_and_shape.1 1 [] (by decide)

/-! ## Pool-hint range invariant

These lemmas justify the hint-range hypothesis of the C2 theorem: a pool
row is created with hint 2, and every write — the advance by `AllocateIP`,
the validated reset by `DeallocateIP`, the rebuild — keeps the hint in
`[2,254]`, so the hypothesis holds in every state the program can reach.
-/

/-- All pool hints lie in `[2,254]`. -/
def poolsInRange (pools : List (String × Int)) : Prop :=
  ∀ p ∈ pools, 2 ≤ p.2 ∧ p.2 ≤ 254

/-- Saving a pool row with an in-range value preserves the range invariant. -/
theorem savePool_range (pools : List (String × Int)) (region : String)
    (v : Int) (h : poolsInRange pools) (hv : 2 ≤ v ∧ v ≤ 254) :
    poolsInRange (savePool pools region v) := by
  intro p hp
  unfold savePool at hp
  split at hp
  · rcases List.mem_map.mp hp with ⟨q, hq, hqe⟩
    by_cases hq1 : q.1 = region
    · rw [if_pos hq1] at hqe
      rw [← hqe]
      exact hv
    · rw [if_neg hq1] at hqe
      rw [← hqe]
      exact h q hq
  · rcases List.mem_append.mp hp with hp | hp
    · exact h p hp
    · simp only [List.mem_singleton] at hp
      rw [hp]
      exact hv

/-- Under the invariant, the hint read by `AllocateIP` (defaulting to 2 for
a fresh pool) is in `[2,254]`. -/
theorem lookupPool_range (pools : List (String × Int)) (region : String)
    (h : poolsInRange pools) :
    2 ≤ (lookupPool pools region).getD 2 ∧ (lookupPool pools region).getD 2 ≤ 254 := by
  unfold lookupPool
  rcases hfind : pools.find? (fun p => p.1 = region) with _ | p
  · rw [hfind]
    simp
  · rw [hfind]
    have := h p (List.mem_of_find?_eq_some hfind)
    simpa using this

/-- The operation `allocateIP` preserves the hint-range invariant. -/
theorem allocateIP_preserves_range (db : DBState) (region : String)
    (h : poolsInRange db.pools) :
    ∀ k ip db2, allocateIP db region = .ok (k, ip, db2) →
      poolsInRange db2.pools := by
  intro k ip db2 halloc
  obtain ⟨hs1, hs2⟩ := lookupPool_range db.pools region h
  simp only [allocateIP] at halloc
  rcases hscan : scanLoop (usedOctet db region)
      ((lookupPool db.pools region).getD 2)
      ((lookupPool db.pools region).getD 2) 253 with _ | _ | k0
  · rw [hscan] at halloc; cases halloc
  · rw [hscan] at halloc; cases halloc
  · rw [hscan] at halloc
    have hr := scanLoop_found_range (usedOctet db region) _ 253 _ _ hs1 hs2 hscan
    simp only [Except.ok.injEq, Prod.mk.injEq] at halloc
    obtain ⟨hk, -, hdb⟩ := halloc
    rw [← hdb]
    refine savePool_range db.pools region _ h ?_
    subst hk
    constructor <;> [skip; skip] <;> split <;> omega

/-- The operation `deallocateIP` preserves the hint-range invariant: the written octet
has been validated to lie in `[2,254]`. -/
theorem deallocateIP_preserves_range (db : DBState) (region ip : String)
    (h : poolsInRange db.pools) :
    ∀ db1, deallocateIP db region ip = .ok db1 → poolsInRange db1.pools := by
  intro db1 hde
  simp only [deallocateIP] at hde
  split at hde
  · cases hde
  · split at hde
    · cases hde
    case h_2 octet hoct =>
      split at hde
      · cases hde
      case isFalse hrange =>
        cases hde
        intro p hp
        rcases List.mem_map.mp hp with ⟨q, hq, hqe⟩
        by_cases hq1 : q.1 = region
        · rw [if_pos hq1] at hqe
          rw [← hqe]
          simp only
          omega
        · rw [if_neg hq1] at hqe
          rw [← hqe]
          exact h q hq

/-- The operation `rebuildIPPool` preserves the hint-range invariant: the recomputed hint
is 2 or a wrapped successor inside `[2,254]`. -/
theorem rebuildIPPool_preserves_range (db : DBState) (region : String)
    (h : poolsInRange db.pools) :
    poolsInRange (rebuildIPPool db region).pools := by
  refine savePool_range db.pools region _ h ?_
  constructor <;> split_ifs <;> omega

end VpnIndexer
